import Mathlib

/-!
Verification of the madness distributed macro-task scheduler against its
natural-language specification.

The development shallowly embeds the code of the repository:

* `src/lib/world/array.h` — the fixed-size `Vector<T,N>` comparison operators
  and the fixed-capacity `Stack<T,N>`.
* `src/lib/world/binfsar.h` — the binary file-stream archives and their
  cookie handshake.
* `src/madness/mra/test_vectormacrotask.cc` — `MacroTask_2G::operator()`,
  `MacroTaskInternal::run/get_output`, `MicroTask`, and the test drivers
  `test_immediate`, `test_deferred`, `test_twice`.

The scheduler collaborators that the repository snapshot does not contain
(`MacroTaskQ`, `Cloud`, `MacroTaskPartitioner`, `Batch`) are modelled from the
spec, each marked `Modelled from the spec:` in its doc comment.

Numerical payloads (`real_function_3d`) are modelled as integers: the scheduler
treats them as opaque values supporting zero-allocation and accumulation, which
is exactly the capability contract the spec states.
-/

/- ------------------------------------------------------------------ -/
/- Embedding of src/lib/world/array.h                                  -/
/- ------------------------------------------------------------------ -/

/-- Loop body of `Vector<T,N>::operator==`: walks both arrays in step; the C++
type forces equal length `N`, so the mixed-length fallback is unreachable and
mirrors the loop simply running out (`return true`). -/
def vecEq {T : Type} [DecidableEq T] : List T → List T → Bool
  | x :: xs, y :: ys => if x ≠ y then false else vecEq xs ys
  | _, _ => true

/-- Loop of `Vector<T,N>::operator<`: `some r` models an early `return r` from
inside the loop, `none` models the loop running to completion. -/
def vecLtLoop {T : Type} [LinearOrder T] : List T → List T → Option Bool
  | x :: xs, y :: ys =>
      if x < y then some true
      else if y < x then some false
      else vecLtLoop xs ys
  | _, _ => none

/-- `Vector<T,N>::operator<`: the loop, then the epilogue comparing the last
elements (`if (v[N-1] == other.v[N-1]) return false; return true;`). `d` stands
for the value an out-of-bounds read of `v[N-1]` would yield when `N = 0`, a
case the C++ leaves undefined. -/
def vecLt {T : Type} [LinearOrder T] (d : T) (a b : List T) : Bool :=
  match vecLtLoop a b with
  | some r => r
  | none => if a.getLastD d = b.getLastD d then false else true

/-- The backing state of `Stack<T,N>`: the array `Vector<T,N> t` (as a list of
length `N`) and the fill count `n`. -/
structure Stack (T : Type) (N : Nat) where
  t : List T
  n : Nat

/-- `Stack::push`: `t[n++] = value`. The `MADNESS_ASSERT(n < N)` precondition
appears as a hypothesis of the theorems about it. -/
def Stack.push {T : Type} {N : Nat} (s : Stack T N) (v : T) : Stack T N :=
  { t := s.t.set s.n v, n := s.n + 1 }

/-- `Stack::pop`: `return t[--n]`. The `MADNESS_ASSERT(n > 0)` precondition
appears as a hypothesis of the theorems about it; `d` is the junk an
out-of-bounds read would yield. -/
def Stack.pop {T : Type} {N : Nat} (d : T) (s : Stack T N) : T × Stack T N :=
  (s.t.getD (s.n - 1) d, { t := s.t, n := s.n - 1 })

/-- `Stack::size`. -/
def Stack.size {T : Type} {N : Nat} (s : Stack T N) : Nat := s.n

/- ------------------------------------------------------------------ -/
/- Embedding of src/lib/world/binfsar.h                                -/
/- ------------------------------------------------------------------ -/

/-- Modelled from the spec: the `ARCHIVE_COOKIE` constant lives in
`world/archive.h`, which the snapshot does not contain; any fixed,
null-free C string plays its role in the handshake. -/
def ARCHIVE_COOKIE : List Char := "MADNESS archive".data

/-- Bytes that `BinaryFstreamOutputArchive::open` writes first into a freshly
truncated file: `store(ARCHIVE_COOKIE, strlen(ARCHIVE_COOKIE)+1)`, the cookie
characters together with the terminating null. -/
def binfsarOutputOpen : List Char := ARCHIVE_COOKIE ++ [Char.ofNat 0]

/-- `BinaryFstreamInputArchive::open` on a file with the given byte contents:
reads `strlen(ARCHIVE_COOKIE)+1` leading bytes and compares them with the
cookie via `strncmp` (the cookie holds no interior null, so `strncmp` over
`n` bytes agrees with equality of the first `n` bytes); on mismatch it
throws. -/
def binfsarInputOpen (file : List Char) : Except String Unit :=
  let n := ARCHIVE_COOKIE.length + 1
  if file.take n = ARCHIVE_COOKIE ++ [Char.ofNat 0] then Except.ok ()
  else Except.error "BinaryFstreamInputArchive: open: not an archive?"

/- ------------------------------------------------------------------ -/
/- Embedding of the macro-task scheduler                               -/
/- (src/madness/mra/test_vectormacrotask.cc plus spec-modelled          -/
/-  collaborators Cloud, Batch, MacroTaskPartitioner, MacroTaskQ)       -/
/- ------------------------------------------------------------------ -/

/-- Model of a `real_function_3d` payload value: the scheduler treats the
numerical field as an opaque value supporting zero-allocation and `+=`
accumulation, so an integer stands in for it. -/
abbrev FVal := Int

/-- The argument tuple `argtupleT` of `MicroTask`:
`(const real_function_3d& f1, const double& arg2, const vector<real_function_3d>& f2)`. -/
structure ArgTuple where
  f1 : FVal
  a : FVal
  v : List FVal
deriving DecidableEq

/-- Modelled from the spec: a payload of the Distributed Store is either a
serialized argument tuple or the list of pointers to the output
`FunctionImpl`s (the output placeholder handles), a closed tagged variant as
the spec's design notes prescribe. -/
inductive Payload where
  | argt (t : ArgTuple)
  | impls (ids : List Nat)
deriving DecidableEq

/-- Modelled from the spec: the Distributed Store (`Cloud`, cloud.h is not in
the snapshot) as the sequence of stored payloads; a record id is the payload's
index. -/
abbrev Cloud := List Payload

/-- Index of the first record holding an identical payload, if any: the
memoization lookup of the store. -/
def firstIdx (c : Cloud) (p : Payload) : Option Nat :=
  match c with
  | [] => none
  | q :: c1 => if q = p then some 0 else (firstIdx c1 p).map (fun i => i + 1)

/-- Modelled from the spec: `store(payload) -> record_id` returns the existing
id when an identical payload (by value) was already stored in the current
epoch, else appends the payload under a fresh id. -/
def cloudStore (c : Cloud) (p : Payload) : Cloud × Nat :=
  match firstIdx c p with
  | some i => (c, i)
  | none => (c ++ [p], c.length)

/-- Modelled from the spec: `load(record_id) -> payload`; an unknown id fails
with "no such record". -/
def cloudLoad (cl : Cloud) (i : Nat) : Option Payload := cl[i]?

/-- Modelled from the spec: a `Batch` output range, the contiguous slice
`[lo, hi)` of the output collection that one task instance writes (for the 1-D
partitioning of `MicroTask` the input slice of the vector argument coincides
with it). -/
structure Batch where
  lo : Nat
  hi : Nat
deriving DecidableEq

/-- Modelled from the spec: `MacroTaskPartitioner::partition_tasks` for 1-D
partitioning over a vector argument of length `L` with granularity `g`:
contiguous chunks, any remainder folded into the final chunk, and exactly one
batch when the granularity reaches the input length. -/
def partition_tasks (g L : Nat) : List Batch :=
  (List.range (max 1 (L / g))).map
    (fun i => ⟨i * g, if i + 1 = max 1 (L / g) then L else (i + 1) * g⟩)

/-- `Batch::copy_input_batch` on `MicroTask`'s argument tuple: scalar
arguments pass through, the vector argument is cut to the batch's slice. -/
def copy_input_batch (b : Batch) (t : ArgTuple) : ArgTuple :=
  { t with v := (t.v.drop b.lo).take (b.hi - b.lo) }

/-- `Batch::insert_result_batch`: writes the batch-local result into the
addressed slice of the (zero) template vector, leaving the rest of the
template in place. -/
def insert_result_batch (b : Batch) (tmpl res : List FVal) : List FVal :=
  tmpl.take b.lo ++ res ++ tmpl.drop (b.lo + res.length)

/-- `MicroTask::operator()`: `arg2 * f1 * apply(world, op, f2)`, elementwise
over the vector argument; `op` models the Coulomb convolution as an opaque
map on payload values. -/
def MicroTask_call (op : FVal → FVal) (f1 a : FVal) (v : List FVal) : List FVal :=
  v.map (fun x => a * f1 * op x)

/-- The universe heap of `FunctionImpl` objects: an impl pointer is an index
into it. `result += tmp1` through the stored impl pointers accumulates into
the pointed-to cells. -/
def heapAccum : List FVal → List Nat → List FVal → List FVal
  | heap, [], _ => heap
  | heap, _, [] => heap
  | heap, i :: ids, x :: xs => heapAccum (heap.set i (heap.getD i 0 + x)) ids xs

/-- Allocation of `MicroTask::allocator` in the universe
(`zero_functions_compressed(world, n)`): `n` fresh impl cells holding zero,
their pointers being the next free heap indices. -/
def allocateZeros (heap : List FVal) (n : Nat) : List FVal × List Nat :=
  (heap ++ List.replicate n 0, (List.range n).map (fun i => heap.length + i))

/-- The bookkeeping of `MacroTask_2G::MacroTaskInternal`: the batch and the
record ids of the inputs and of the output placeholder. -/
structure MacroTaskInternal where
  batch : Batch
  inputrecords : List Nat
  outputrecords : List Nat
deriving DecidableEq

/-- Loading `cloud.load<argtupleT>(subworld, inputrecords)`: the argument
tuple was stored as one record. -/
def loadArg (c : Cloud) (rs : List Nat) : Option ArgTuple :=
  match rs with
  | [i] =>
      match cloudLoad c i with
      | some (Payload.argt t) => some t
      | _ => none
  | _ => none

/-- Loading the output impl pointers in `MacroTaskInternal::get_output`. -/
def loadImpls (c : Cloud) (rs : List Nat) : Option (List Nat) :=
  match rs with
  | [i] =>
      match cloudLoad c i with
      | some (Payload.impls ids) => some ids
      | _ => none
  | _ => none

/-- `MacroTaskInternal::run`: load the inputs, slice them per the batch, apply
the task, insert the batch-local result into a zero template of the full
output shape, and accumulate it into the universe result through the stored
impl pointers (`result += tmp1`). `none` models the `MADNESS_EXCEPTION`
paths. -/
def MacroTaskInternal_run (op : FVal → FVal) (c : Cloud) (rec : MacroTaskInternal)
    (heap : List FVal) : Option (List FVal) :=
  match loadArg c rec.inputrecords, loadImpls c rec.outputrecords with
  | some argt, some ids =>
      let bt := copy_input_batch rec.batch argt
      let result_tmp := MicroTask_call op bt.f1 bt.a bt.v
      let tmp1 := insert_result_batch rec.batch (List.replicate argt.v.length 0) result_tmp
      some (heapAccum heap ids tmp1)
  | _, _ => none

/-- Modelled from the spec: `MacroTaskQ::run_all` dispatches the given records
in queue order, each to completion, and fails as a whole when a record
fails. -/
def MacroTaskQ_run_all (op : FVal → FVal) (c : Cloud) :
    List MacroTaskInternal → List FVal → Option (List FVal)
  | [], heap => some heap
  | r :: rs, heap =>
      match MacroTaskInternal_run op c r heap with
      | some heap1 => MacroTaskQ_run_all op c rs heap1
      | none => none

/-- Modelled from the spec: the state of a `MacroTaskQ` — its Cloud and the
records submitted but not yet run. -/
structure MacroTaskQ where
  cloud : Cloud
  pending : List MacroTaskInternal

/-- The caller-side state of a `MacroTask_2G` object: the member
`taskq_ptr`, null when the caller supplied no queue. -/
structure MacroTask_2G where
  taskq_ptr : Option MacroTaskQ

/-- `MacroTask_2G::operator()` on `MicroTask`: decide immediate mode from the
member `taskq_ptr` (resetting it to a fresh queue when null), partition the
arguments, store inputs and the output placeholder in the cloud, enqueue one
`MacroTaskInternal` per batch, and in immediate mode run the just-added
records before returning. Returns the new object state, the universe heap,
and the caller's result handle (the output impl pointers). -/
def MacroTask_2G_call (op : FVal → FVal) (g : Nat) (mt : MacroTask_2G)
    (heap : List FVal) (argt : ArgTuple) :
    Option (MacroTask_2G × List FVal × List Nat) :=
  let immediate_execution := mt.taskq_ptr.isNone
  let q := mt.taskq_ptr.getD ⟨[], []⟩
  let sc1 := cloudStore q.cloud (Payload.argt argt)
  let heap1 := (allocateZeros heap argt.v.length).1
  let ids := (allocateZeros heap argt.v.length).2
  let sc2 := cloudStore sc1.1 (Payload.impls ids)
  let vtask := (partition_tasks g argt.v.length).map (fun b => ⟨b, [sc1.2], [sc2.2]⟩)
  let pending1 := q.pending ++ vtask
  if immediate_execution then
    match MacroTaskQ_run_all op sc2.1 vtask heap1 with
    | some heap2 => some (⟨some ⟨sc2.1, []⟩⟩, heap2, ids)
    | none => none
  else
    some (⟨some ⟨sc2.1, pending1⟩⟩, heap1, ids)

/-- Reading the caller's result handle after execution: the values of the
output impl cells in the universe heap. -/
def readResult (heap : List FVal) (ids : List Nat) : List FVal :=
  ids.map (fun i => heap.getD i 0)

/-- The `test_immediate` pipeline: construct `MacroTask_2G` with no queue,
invoke once, read the result. -/
def runImmediate (op : FVal → FVal) (g : Nat) (heap : List FVal) (argt : ArgTuple) :
    Option (List FVal) :=
  (MacroTask_2G_call op g ⟨none⟩ heap argt).map (fun s => readResult s.2.1 s.2.2)

/-- The `test_deferred` pipeline: construct a fresh `MacroTaskQ`, hand it to
`MacroTask_2G`, invoke once (which only submits), then `taskq->run_all()` and
read the result handle. -/
def runDeferred (op : FVal → FVal) (g : Nat) (heap : List FVal) (argt : ArgTuple) :
    Option (List FVal) :=
  match MacroTask_2G_call op g ⟨some ⟨[], []⟩⟩ heap argt with
  | some (⟨some q⟩, heap1, ids) =>
      (MacroTaskQ_run_all op q.cloud q.pending heap1).map (fun h => readResult h ids)
  | _ => none

/-- Elementwise accumulation `result += partial_result` on vectors of payload
values (madness `operator+=` on `vector<real_function_3d>` of equal size). -/
def listAdd (a b : List FVal) : List FVal := List.zipWith (fun x y => x + y) a b

/-- The vector `tmp1` that one `MacroTaskInternal::run` accumulates into the
global output: the batch-local result inserted into a zero template of the
full output shape. -/
def taskDelta (op : FVal → FVal) (argt : ArgTuple) (b : Batch) : List FVal :=
  insert_result_batch b (List.replicate argt.v.length 0)
    (MicroTask_call op argt.f1 argt.a (copy_input_batch b argt).v)

/-- Disjointness of two batch output ranges. -/
def batchDisjoint (b1 b2 : Batch) : Prop := b1.hi ≤ b2.lo ∨ b2.hi ≤ b1.lo

instance (b1 b2 : Batch) : Decidable (batchDisjoint b1 b2) := by
  unfold batchDisjoint; infer_instance

/-- The `test_twice` pipeline: one deferred queue, the same task invoked twice
with the same arguments, then one `run_all()`. Returns the queue's cloud after
both submissions, the final universe heap, and the two result handles. -/
def runTwice (op : FVal → FVal) (g : Nat) (heap : List FVal) (argt : ArgTuple) :
    Option (Cloud × List FVal × List Nat × List Nat) :=
  match MacroTask_2G_call op g ⟨some ⟨[], []⟩⟩ heap argt with
  | some (mt1, heap1, ids1) =>
      match MacroTask_2G_call op g mt1 heap1 argt with
      | some (⟨some q⟩, heap2, ids2) =>
          (MacroTaskQ_run_all op q.cloud q.pending heap2).map
            (fun h => (q.cloud, h, ids1, ids2))
      | _ => none
  | _ => none

/- ------------------------------------------------------------------ -/
/- Helper lemmas                                                       -/
/- ------------------------------------------------------------------ -/

theorem getD_append_lt (a b : List FVal) (j : Nat) (h : j < a.length) :
    (a ++ b).getD j 0 = a.getD j 0 := by
  simp [List.getD_eq_getElem?_getD, List.getElem?_append_left h]

theorem getD_append_ge (a b : List FVal) (j : Nat) (h : a.length ≤ j) :
    (a ++ b).getD j 0 = b.getD (j - a.length) 0 := by
  simp [List.getD_eq_getElem?_getD, List.getElem?_append_right h]

theorem firstIdx_eq_none_iff (c : Cloud) (p : Payload) :
    firstIdx c p = none ↔ p ∉ c := by
  induction c with
  | nil => simp [firstIdx]
  | cons q c1 ih =>
      by_cases hq : q = p
      · simp [firstIdx, hq]
      · have hpq : ¬p = q := fun e => hq e.symm
        simp [firstIdx, hq, ih, hpq]

theorem firstIdx_lookup (cl : Cloud) (p : Payload) :
    ∀ i, firstIdx cl p = some i → cl[i]? = some p := by
  induction cl with
  | nil => intro i h; simp [firstIdx] at h
  | cons q c1 ih =>
      intro i h
      by_cases hq : q = p
      · simp [firstIdx, hq] at h
        subst h; simp [hq]
      · simp [firstIdx, hq] at h
        obtain ⟨i1, h1, rfl⟩ := h
        simpa using ih i1 h1

theorem firstIdx_append_self (c : Cloud) (p : Payload) (h : p ∉ c) :
    firstIdx (c ++ [p]) p = some c.length := by
  induction c with
  | nil => simp [firstIdx]
  | cons q c1 ih =>
      simp only [List.mem_cons, not_or] at h
      have hq : ¬q = p := fun e => h.1 e.symm
      simp [firstIdx, hq, ih h.2]

theorem cloudStore_load (c : Cloud) (p : Payload) :
    cloudLoad (cloudStore c p).1 (cloudStore c p).2 = some p := by
  unfold cloudStore
  cases h : firstIdx c p with
  | some i => simpa [cloudLoad] using firstIdx_lookup c p i h
  | none => simp [cloudLoad]

theorem cloudStore_stable (c : Cloud) (p : Payload) (i : Nat) (h : i < c.length) :
    cloudLoad (cloudStore c p).1 i = cloudLoad c i := by
  unfold cloudStore
  cases firstIdx c p with
  | some j => rfl
  | none => simp [cloudLoad, List.getElem?_append_left h]

theorem cloudStore_idem (c : Cloud) (p : Payload) :
    cloudStore (cloudStore c p).1 p = cloudStore c p := by
  unfold cloudStore
  cases h : firstIdx c p with
  | some i => simp [h]
  | none =>
      have hmem : p ∉ c := (firstIdx_eq_none_iff c p).mp h
      simp [firstIdx_append_self c p hmem]

/- ------------------------------------------------------------------ -/
/- Claim theorems (easy group)                                         -/
/- ------------------------------------------------------------------ -/

/-- C4: storing the same payload twice in one epoch of the Distributed Store
returns the same record id (and leaves the store unchanged), and `load` applied
to the id returned by `store x` returns `x`: load is a left inverse of
store. -/
theorem C4_store_idempotent_load_inverse (c : Cloud) (p : Payload) :
    (cloudStore (cloudStore c p).1 p).2 = (cloudStore c p).2 ∧
    (cloudStore (cloudStore c p).1 p).1 = (cloudStore c p).1 ∧
    cloudLoad (cloudStore c p).1 (cloudStore c p).2 = some p :=
  ⟨by rw [cloudStore_idem], by rw [cloudStore_idem], cloudStore_load c p⟩

/-- C8: opening a `BinaryFstreamInputArchive` on a file whose leading bytes do
not equal the archive cookie (with its terminating null, as `strncmp` over
`strlen+1` bytes compares them) throws "not an archive?", while any file
beginning with what `BinaryFstreamOutputArchive::open` writes opens
successfully: the write-then-read round trip never throws. -/
theorem C8_archive_cookie_handshake :
    (∀ file : List Char,
        file.take (ARCHIVE_COOKIE.length + 1) ≠ ARCHIVE_COOKIE ++ [Char.ofNat 0] →
        binfsarInputOpen file
          = Except.error "BinaryFstreamInputArchive: open: not an archive?") ∧
    (∀ rest : List Char, binfsarInputOpen (binfsarOutputOpen ++ rest) = Except.ok ()) := by
  constructor
  · intro file h
    simp only [binfsarInputOpen]
    exact if_neg h
  · intro rest
    have hlen : ARCHIVE_COOKIE.length + 1 = (ARCHIVE_COOKIE ++ [Char.ofNat 0]).length := by
      simp
    simp only [binfsarInputOpen, binfsarOutputOpen, hlen, List.take_left]
    simp

/- ------------------------------------------------------------------ -/
/- Partitioner lemmas                                                  -/
/- ------------------------------------------------------------------ -/

theorem partition_last_mul_le (g L : Nat) : (max 1 (L / g) - 1) * g ≤ L := by
  rcases Nat.eq_zero_or_pos (L / g) with h | h
  · simp [h]
  · have h1 : max 1 (L / g) = L / g := Nat.max_eq_right h
    rw [h1]
    calc (L / g - 1) * g ≤ (L / g) * g := Nat.mul_le_mul_right g (Nat.sub_le _ _)
    _ ≤ L := Nat.div_mul_le_self L g

theorem partition_mem_iff (g L : Nat) (b : Batch) :
    b ∈ partition_tasks g L ↔
      ∃ i, i < max 1 (L / g) ∧
        b = ⟨i * g, if i + 1 = max 1 (L / g) then L else (i + 1) * g⟩ := by
  simp only [partition_tasks, List.mem_map, List.mem_range]
  constructor
  · rintro ⟨i, hi, rfl⟩; exact ⟨i, hi, rfl⟩
  · rintro ⟨i, hi, rfl⟩; exact ⟨i, hi, rfl⟩

theorem partition_wf (g L : Nat) :
    ∀ b ∈ partition_tasks g L, b.lo ≤ b.hi ∧ b.hi ≤ L := by
  intro b hb
  obtain ⟨i, hi, rfl⟩ := (partition_mem_iff g L b).mp hb
  by_cases hn : i + 1 = max 1 (L / g)
  · constructor
    · simp only [hn, if_pos rfl]
      have : i = max 1 (L / g) - 1 := by omega
      subst this
      exact partition_last_mul_le g L
    · simp [hn]
  · constructor
    · simp only [if_neg hn]
      exact Nat.mul_le_mul_right g (by omega)
    · simp only [if_neg hn]
      calc (i + 1) * g ≤ (max 1 (L / g) - 1) * g := Nat.mul_le_mul_right g (by omega)
      _ ≤ L := partition_last_mul_le g L

theorem partition_cover (g L j : Nat) (h : j < L) :
    ∃ b ∈ partition_tasks g L, b.lo ≤ j ∧ j < b.hi := by
  set n := max 1 (L / g) with hn
  have hn1 : 1 ≤ n := le_max_left _ _
  refine ⟨⟨min (j / g) (n - 1) * g,
    if min (j / g) (n - 1) + 1 = n then L else (min (j / g) (n - 1) + 1) * g⟩,
    (partition_mem_iff g L _).mpr ⟨min (j / g) (n - 1), by omega, rfl⟩, ?_, ?_⟩
  · simp only
    calc min (j / g) (n - 1) * g ≤ (j / g) * g :=
          Nat.mul_le_mul_right g (Nat.min_le_left _ _)
    _ ≤ j := Nat.div_mul_le_self j g
  · simp only
    by_cases he : min (j / g) (n - 1) + 1 = n
    · simpa [he] using h
    · rw [if_neg he]
      have hg : 0 < g := by
        rcases Nat.eq_zero_or_pos g with hg0 | hg0
        · exfalso
          have hjg : j / g = 0 := by simp [hg0]
          have hn2 : n = 1 := by simp [hn, hg0]
          omega
        · exact hg0
      have hmin : min (j / g) (n - 1) = j / g := by
        rcases le_or_lt (j / g) (n - 1) with hle | hlt
        · exact Nat.min_eq_left hle
        · exfalso
          have : min (j / g) (n - 1) = n - 1 := Nat.min_eq_right (by omega)
          omega
      rw [hmin]
      have hdm := Nat.div_add_mod j g
      have hml := Nat.mod_lt j hg
      rw [add_mul, one_mul, Nat.mul_comm]
      omega

theorem partition_sorted (g L : Nat) :
    List.Pairwise (fun b1 b2 : Batch => b1.hi ≤ b2.lo) (partition_tasks g L) := by
  unfold partition_tasks
  rw [List.pairwise_map]
  refine (List.pairwise_lt_range _).imp_of_mem ?_
  intro i1 i2 h1 h2 h12
  rw [List.mem_range] at h2
  have hne : i1 + 1 ≠ max 1 (L / g) := by omega
  simp only [if_neg hne]
  exact Nat.mul_le_mul_right g (by omega)

/- ------------------------------------------------------------------ -/
/- Claim theorems: C1 and C7                                           -/
/- ------------------------------------------------------------------ -/

/-- C1: for every task callable and argument tuple, running the task in
immediate mode (a `MacroTask_2G` constructed without a task queue, invoked
once) produces the same result as submitting the same task with the same
arguments to a deferred queue and then calling `run_all()` — exact equality in
the model, hence in particular equality within floating-point tolerance. -/
theorem C1_immediate_eq_deferred (op : FVal → FVal) (g : Nat) (heap : List FVal)
    (argt : ArgTuple) :
    runImmediate op g heap argt = runDeferred op g heap argt := by
  unfold runImmediate runDeferred MacroTask_2G_call
  simp only [Option.isNone_none, Option.isNone_some, Option.getD_some, Option.getD_none,
    if_true, if_false, List.nil_append, Bool.false_eq_true, ite_false, ite_true]
  cases h : MacroTaskQ_run_all op (cloudStore (cloudStore [] (Payload.argt argt)).1
      (Payload.impls (allocateZeros heap argt.v.length).2)).1
      ((partition_tasks g argt.v.length).map
        (fun b => ⟨b, [(cloudStore [] (Payload.argt argt)).2],
          [(cloudStore (cloudStore [] (Payload.argt argt)).1
            (Payload.impls (allocateZeros heap argt.v.length).2)).2]⟩))
      (allocateZeros heap argt.v.length).1 with
  | some h2 => simp [h]
  | none => simp [h]

/-- C7: for every input length `L` and granularity `g`, the Batches produced
by the Partitioner have output ranges whose union is exactly `[0, L)` with no
two ranges overlapping; in particular for a vector of length 20 and
granularity 5 the Partitioner produces exactly the 4 batches
`[0,5), [5,10), [10,15), [15,20)`. -/
theorem C7_partition_coverage :
    (∀ L g j : Nat, (∃ b ∈ partition_tasks g L, b.lo ≤ j ∧ j < b.hi) ↔ j < L) ∧
    (∀ L g : Nat, List.Pairwise batchDisjoint (partition_tasks g L)) ∧
    partition_tasks 5 20 = [⟨0, 5⟩, ⟨5, 10⟩, ⟨10, 15⟩, ⟨15, 20⟩] := by
  refine ⟨?_, ?_, ?_⟩
  · intro L g j
    constructor
    · rintro ⟨b, hb, hlo, hhi⟩
      exact lt_of_lt_of_le hhi (partition_wf g L b hb).2
    · exact partition_cover g L j
  · intro L g
    exact (partition_sorted g L).imp (fun h => Or.inl h)
  · decide

/- ------------------------------------------------------------------ -/
/- Vector and Stack lemmas (array.h)                                   -/
/- ------------------------------------------------------------------ -/

theorem vecLtLoop_self {T : Type} [LinearOrder T] (a : List T) : vecLtLoop a a = none := by
  induction a with
  | nil => rfl
  | cons x xs ih => simp [vecLtLoop, lt_irrefl, ih]

theorem vecLt_self {T : Type} [LinearOrder T] (d : T) (a : List T) : vecLt d a a = false := by
  unfold vecLt
  rw [vecLtLoop_self]
  simp

theorem vecLt_cons_eq {T : Type} [LinearOrder T] (d x : T) (xs ys : List T)
    (hlen : xs.length = ys.length) :
    vecLt d (x :: xs) (x :: ys) = vecLt d xs ys := by
  unfold vecLt
  have hloop : vecLtLoop (x :: xs) (x :: ys) = vecLtLoop xs ys := by
    simp [vecLtLoop, lt_irrefl]
  rw [hloop]
  cases h : vecLtLoop xs ys with
  | some r => rfl
  | none =>
      cases xs with
      | nil =>
          cases ys with
          | nil => simp
          | cons y1 ys1 => simp at hlen
      | cons x1 xs1 =>
          cases ys with
          | nil => simp at hlen
          | cons y1 ys1 => simp [List.getLastD_cons]

theorem vecLt_iff {T : Type} [LinearOrder T] (d : T) :
    ∀ (a b : List T), a.length = b.length →
      (vecLt d a b = true ↔
        ∃ i, i < a.length ∧ (∀ j, j < i → a.getD j d = b.getD j d) ∧ a.getD i d < b.getD i d) := by
  intro a
  induction a with
  | nil =>
      intro b hlen
      have hb : b = [] := List.eq_nil_of_length_eq_zero hlen.symm
      subst hb
      simp [vecLt, vecLtLoop]
  | cons x xs ih =>
      intro b hlen
      cases b with
      | nil => simp at hlen
      | cons y ys =>
          simp only [List.length_cons, Nat.add_right_cancel_iff] at hlen
          rcases lt_trichotomy x y with hxy | hxy | hxy
          · have hl : vecLt d (x :: xs) (y :: ys) = true := by
              unfold vecLt
              simp [vecLtLoop, hxy]
            rw [hl]
            simp only [true_iff]
            exact ⟨0, by simp, by intro j hj; omega, by simpa using hxy⟩
          · subst hxy
            rw [vecLt_cons_eq d x xs ys hlen, ih ys hlen]
            constructor
            · rintro ⟨i, hi, hpre, hlt⟩
              refine ⟨i + 1, by simpa using Nat.succ_lt_succ hi, ?_, by simpa using hlt⟩
              intro j hj
              cases j with
              | zero => simp
              | succ j1 => simpa using hpre j1 (by omega)
            · rintro ⟨i, hi, hpre, hlt⟩
              cases i with
              | zero => simp at hlt
              | succ i1 =>
                  refine ⟨i1, by simpa using hi, ?_, by simpa using hlt⟩
                  intro j hj
                  simpa using hpre (j + 1) (by omega)
          · have hl : vecLt d (x :: xs) (y :: ys) = false := by
              unfold vecLt
              simp [vecLtLoop, hxy, not_lt_of_gt hxy, asymm hxy]
            rw [hl]
            simp only [Bool.false_eq_true, false_iff, not_exists]
            rintro i ⟨hi, hpre, hlt⟩
            cases i with
            | zero =>
                simp only [List.getD_cons_zero] at hlt
                exact absurd hlt (asymm hxy)
            | succ i1 =>
                have h0 := hpre 0 (by omega)
                simp only [List.getD_cons_zero] at h0
                exact absurd h0 (ne_of_gt hxy)

theorem vecEq_iff {T : Type} [DecidableEq T] (d : T) :
    ∀ (a b : List T), a.length = b.length →
      (vecEq a b = true ↔ ∀ j, j < a.length → a.getD j d = b.getD j d) := by
  intro a
  induction a with
  | nil =>
      intro b hlen
      simp [vecEq]
  | cons x xs ih =>
      intro b hlen
      cases b with
      | nil => simp at hlen
      | cons y ys =>
          simp only [List.length_cons, Nat.add_right_cancel_iff] at hlen
          by_cases hxy : x = y
          · subst hxy
            have heq : vecEq (x :: xs) (x :: ys) = vecEq xs ys := by
              simp [vecEq]
            rw [heq, ih ys hlen]
            constructor
            · intro h j hj
              cases j with
              | zero => simp
              | succ j1 => simpa using h j1 (by simpa using hj)
            · intro h j hj
              simpa using h (j + 1) (by simpa using Nat.succ_lt_succ hj)
          · have heq : vecEq (x :: xs) (y :: ys) = false := by
              simp [vecEq, hxy]
            rw [heq]
            simp only [Bool.false_eq_true, false_iff, not_forall]
            exact ⟨0, by simp, by simpa using hxy⟩

/- ------------------------------------------------------------------ -/
/- Claim theorems: C9 and C10                                          -/
/- ------------------------------------------------------------------ -/

/-- C9: for the fixed-capacity `Stack<T,N>`, a push on a stack of size
`n < N` followed by a pop returns the pushed value and restores the size to
`n` (LIFO); push raises the size by exactly one; the asserted precondition
`n < N` puts push's write index in bounds, and on any stack with `0 < n ≤ N`
pop's read index `n-1` is in bounds and pop lowers the size by exactly one. -/
theorem C9_stack_lifo (T : Type) (N : Nat) (d v : T) (s : Stack T N)
    (hlen : s.t.length = N) (hn : s.n < N) :
    (Stack.pop d (Stack.push s v)).1 = v ∧
    (Stack.pop d (Stack.push s v)).2.size = s.size ∧
    (Stack.push s v).size = s.size + 1 ∧
    s.n < (Stack.push s v).t.length ∧
    (∀ s2 : Stack T N, s2.t.length = N → 0 < s2.n → s2.n ≤ N →
      (s2.n - 1 < s2.t.length ∧ (Stack.pop d s2).2.size = s2.n - 1)) := by
  refine ⟨?_, ?_, ?_, ?_, ?_⟩
  · show (s.t.set s.n v).getD (s.n + 1 - 1) d = v
    have hs : s.n < s.t.length := by omega
    rw [Nat.add_sub_cancel, List.getD_eq_getElem?_getD, List.getElem?_set_self hs]
    rfl
  · show s.n + 1 - 1 = s.n
    omega
  · rfl
  · show s.n < (s.t.set s.n v).length
    rw [List.length_set]; omega
  · intro s2 h2len h2pos h2le
    exact ⟨by omega, rfl⟩

/-- Witness for C9 at a concrete stack: capacity 3, one element, push 7 then
pop. -/
theorem C9_stack_lifo_witness :
    (Stack.pop 0 (Stack.push (⟨[0, 0, 0], 1⟩ : Stack Int 3) 7)).1 = 7 ∧
    (Stack.pop 0 (Stack.push (⟨[0, 0, 0], 1⟩ : Stack Int 3) 7)).2.size
      = (⟨[0, 0, 0], 1⟩ : Stack Int 3).size ∧
    (Stack.push (⟨[0, 0, 0], 1⟩ : Stack Int 3) 7).size
      = (⟨[0, 0, 0], 1⟩ : Stack Int 3).size + 1 ∧
    (⟨[0, 0, 0], 1⟩ : Stack Int 3).n
      < (Stack.push (⟨[0, 0, 0], 1⟩ : Stack Int 3) 7).t.length ∧
    (∀ s2 : Stack Int 3, s2.t.length = 3 → 0 < s2.n → s2.n ≤ 3 →
      (s2.n - 1 < s2.t.length ∧ (Stack.pop 0 s2).2.size = s2.n - 1)) :=
  C9_stack_lifo Int 3 0 7 ⟨[0, 0, 0], 1⟩ rfl (by decide)

/-- C10: `Vector<T,N>::operator<` is a strict lexicographic order consistent
with `operator==`: `a < a` is false; `a < b` holds exactly when at the first
index where `a` and `b` differ the element of `a` is smaller; and `a == b`
holds exactly when all elements are pairwise equal. -/
theorem C10_vector_lex_order (T : Type) [LinearOrder T] (d : T) (a b : List T)
    (hlen : a.length = b.length) :
    vecLt d a a = false ∧
    (vecLt d a b = true ↔
      ∃ i, i < a.length ∧ (∀ j, j < i → a.getD j d = b.getD j d) ∧ a.getD i d < b.getD i d) ∧
    (vecEq a b = true ↔ ∀ j, j < a.length → a.getD j d = b.getD j d) :=
  ⟨vecLt_self d a, vecLt_iff d a b hlen, vecEq_iff d a b hlen⟩

/-- Witness for C10 at concrete vectors [1,2] and [1,3] over the integers. -/
theorem C10_vector_lex_order_witness :
    vecLt (0 : Int) [1, 2] [1, 2] = false ∧
    (vecLt (0 : Int) [1, 2] [1, 3] = true ↔
      ∃ i, i < ([1, 2] : List Int).length ∧
        (∀ j, j < i → ([1, 2] : List Int).getD j 0 = ([1, 3] : List Int).getD j 0) ∧
        ([1, 2] : List Int).getD i 0 < ([1, 3] : List Int).getD i 0) ∧
    (vecEq ([1, 2] : List Int) [1, 3] = true ↔
      ∀ j, j < ([1, 2] : List Int).length →
        ([1, 2] : List Int).getD j 0 = ([1, 3] : List Int).getD j 0) :=
  C10_vector_lex_order Int 0 [1, 2] [1, 3] rfl

/- ------------------------------------------------------------------ -/
/- Accumulation commutes: machinery for C6                             -/
/- ------------------------------------------------------------------ -/

theorem bump_comm (h : List FVal) (i j : Nat) (x y : FVal) :
    (h.set i (h.getD i 0 + x)).set j ((h.set i (h.getD i 0 + x)).getD j 0 + y)
      = (h.set j (h.getD j 0 + y)).set i ((h.set j (h.getD j 0 + y)).getD i 0 + x) := by
  by_cases hij : i = j
  · subst hij
    by_cases hlt : i < h.length
    · rw [List.set_set, List.set_set,
        List.getD_eq_getElem?_getD (h.set i _), List.getElem?_set_self (by simpa using hlt),
        List.getD_eq_getElem?_getD (h.set i _), List.getElem?_set_self (by simpa using hlt)]
      simp only [Option.getD_some]
      ring_nf
    · have hle : h.length ≤ i := by omega
      simp [List.set_eq_of_length_le hle]
  · rw [List.getD_eq_getElem?_getD (h.set i _) j, List.getElem?_set_ne hij,
      List.getD_eq_getElem?_getD (h.set j _) i, List.getElem?_set_ne (Ne.symm hij),
      ← List.getD_eq_getElem?_getD h j, ← List.getD_eq_getElem?_getD h i,
      List.set_comm _ _ _ hij]

theorem heapAccum_nil (h : List FVal) (xs : List FVal) : heapAccum h [] xs = h := by
  cases xs <;> rfl

theorem heapAccum_ids_nil (h : List FVal) (ids : List Nat) : heapAccum h ids [] = h := by
  cases ids <;> rfl

theorem heapAccum_bump :
    ∀ (ids : List Nat) (xs : List FVal) (h : List FVal) (i : Nat) (x : FVal),
      heapAccum (h.set i (h.getD i 0 + x)) ids xs
        = (heapAccum h ids xs).set i ((heapAccum h ids xs).getD i 0 + x) := by
  intro ids
  induction ids with
  | nil => intro xs h i x; rw [heapAccum_nil, heapAccum_nil]
  | cons j ids ih =>
      intro xs h i x
      cases xs with
      | nil => rw [heapAccum_ids_nil, heapAccum_ids_nil]
      | cons y ys =>
          show heapAccum ((h.set i (h.getD i 0 + x)).set j
              ((h.set i (h.getD i 0 + x)).getD j 0 + y)) ids ys = _
          rw [bump_comm]
          rw [ih ys (h.set j (h.getD j 0 + y)) i x]
          rfl

theorem heapAccum_comm :
    ∀ (ids : List Nat) (xs : List FVal) (ids2 : List Nat) (xs2 : List FVal) (h : List FVal),
      heapAccum (heapAccum h ids xs) ids2 xs2 = heapAccum (heapAccum h ids2 xs2) ids xs := by
  intro ids
  induction ids with
  | nil => intro xs ids2 xs2 h; rw [heapAccum_nil, heapAccum_nil]
  | cons i ids ih =>
      intro xs ids2 xs2 h
      cases xs with
      | nil => rw [heapAccum_ids_nil, heapAccum_ids_nil]
      | cons x xs1 =>
          calc heapAccum (heapAccum h (i :: ids) (x :: xs1)) ids2 xs2
              = heapAccum (heapAccum (h.set i (h.getD i 0 + x)) ids xs1) ids2 xs2 := rfl
            _ = heapAccum (heapAccum (h.set i (h.getD i 0 + x)) ids2 xs2) ids xs1 :=
                ih xs1 ids2 xs2 (h.set i (h.getD i 0 + x))
            _ = heapAccum ((heapAccum h ids2 xs2).set i
                  ((heapAccum h ids2 xs2).getD i 0 + x)) ids xs1 := by
                rw [heapAccum_bump]
            _ = heapAccum (heapAccum h ids2 xs2) (i :: ids) (x :: xs1) := rfl

theorem run_heap_indep (op : FVal → FVal) (cl : Cloud) (r : MacroTaskInternal)
    (heap : List FVal) :
    MacroTaskInternal_run op cl r heap = none ↔
      (loadArg cl r.inputrecords = none ∨ loadImpls cl r.outputrecords = none) := by
  unfold MacroTaskInternal_run
  cases loadArg cl r.inputrecords <;> cases loadImpls cl r.outputrecords <;> simp

theorem run_comm (op : FVal → FVal) (cl : Cloud) (r s : MacroTaskInternal)
    (heap : List FVal) :
    (MacroTaskInternal_run op cl r heap).bind (fun h1 => MacroTaskInternal_run op cl s h1)
      = (MacroTaskInternal_run op cl s heap).bind (fun h1 => MacroTaskInternal_run op cl r h1) := by
  unfold MacroTaskInternal_run
  cases loadArg cl r.inputrecords with
  | none =>
      cases loadArg cl s.inputrecords with
      | none => rfl
      | some argS => cases loadImpls cl s.outputrecords <;> rfl
  | some argR =>
      cases loadImpls cl r.outputrecords with
      | none =>
          cases loadArg cl s.inputrecords with
          | none => rfl
          | some argS => cases loadImpls cl s.outputrecords <;> rfl
      | some idsR =>
          cases loadArg cl s.inputrecords with
          | none => rfl
          | some argS =>
              cases loadImpls cl s.outputrecords with
              | none => rfl
              | some idsS =>
                  simp only [Option.some_bind]
                  rw [heapAccum_comm]

theorem run_all_cons (op : FVal → FVal) (cl : Cloud) (r : MacroTaskInternal)
    (rs : List MacroTaskInternal) (heap : List FVal) :
    MacroTaskQ_run_all op cl (r :: rs) heap
      = (MacroTaskInternal_run op cl r heap).bind (MacroTaskQ_run_all op cl rs) := by
  cases h : MacroTaskInternal_run op cl r heap <;> simp [MacroTaskQ_run_all, h]

theorem run_all_perm (op : FVal → FVal) (cl : Cloud) {P1 P2 : List MacroTaskInternal}
    (hp : P1.Perm P2) :
    ∀ heap, MacroTaskQ_run_all op cl P1 heap = MacroTaskQ_run_all op cl P2 heap := by
  induction hp with
  | nil => intro heap; rfl
  | cons x _ ih =>
      intro heap
      rw [run_all_cons, run_all_cons]
      cases h : MacroTaskInternal_run op cl x heap with
      | none => rfl
      | some h1 => simp only [Option.some_bind]; exact ih h1
  | swap a b l =>
      intro heap
      rw [run_all_cons, run_all_cons]
      have hb : ∀ h1, MacroTaskQ_run_all op cl (a :: l) h1
          = (MacroTaskInternal_run op cl a h1).bind (MacroTaskQ_run_all op cl l) :=
        fun h1 => run_all_cons op cl a l h1
      have ha : ∀ h1, MacroTaskQ_run_all op cl (b :: l) h1
          = (MacroTaskInternal_run op cl b h1).bind (MacroTaskQ_run_all op cl l) :=
        fun h1 => run_all_cons op cl b l h1
      simp only [hb, ha]
      rw [← Option.bind_assoc, ← Option.bind_assoc, run_comm]
  | trans _ _ ih1 ih2 =>
      intro heap
      rw [ih1 heap, ih2 heap]

/-- C6: for every set of batch records with pairwise-disjoint output ranges
and any two dispatch orders of the same records (the reordering of a queue at
equal priorities), executing the queue in either order yields the same final
output heap: the merged value does not depend on the accumulation order across
batches (the model's merge is exact, so equality holds outright, in particular
within floating-point tolerance). -/
theorem C6_merge_order_irrelevant (op : FVal → FVal) (cl : Cloud)
    (P1 P2 : List MacroTaskInternal) (heap : List FVal)
    (_hdisj : List.Pairwise (fun r s => batchDisjoint r.batch s.batch) P1)
    (hperm : P1.Perm P2) :
    MacroTaskQ_run_all op cl P1 heap = MacroTaskQ_run_all op cl P2 heap :=
  run_all_perm op cl hperm heap

/-- Witness for C6: two records with disjoint output slices of one output
object, dispatched in both orders over a concrete cloud and heap. -/
theorem C6_merge_order_irrelevant_witness :
    MacroTaskQ_run_all id [Payload.argt ⟨1, 1, [1, 2]⟩, Payload.impls [0, 1]]
        [⟨⟨0, 1⟩, [0], [1]⟩, ⟨⟨1, 2⟩, [0], [1]⟩] [0, 0]
      = MacroTaskQ_run_all id [Payload.argt ⟨1, 1, [1, 2]⟩, Payload.impls [0, 1]]
        [⟨⟨1, 2⟩, [0], [1]⟩, ⟨⟨0, 1⟩, [0], [1]⟩] [0, 0] :=
  C6_merge_order_irrelevant id [Payload.argt ⟨1, 1, [1, 2]⟩, Payload.impls [0, 1]]
    [⟨⟨0, 1⟩, [0], [1]⟩, ⟨⟨1, 2⟩, [0], [1]⟩]
    [⟨⟨1, 2⟩, [0], [1]⟩, ⟨⟨0, 1⟩, [0], [1]⟩] [0, 0] (by decide) (by decide)

/- ------------------------------------------------------------------ -/
/- Region accumulation: machinery for C2, C3, C5                       -/
/- ------------------------------------------------------------------ -/

theorem listAdd_length (a b : List FVal) : (listAdd a b).length = min a.length b.length := by
  simp [listAdd]

theorem listAdd_getD (a b : List FVal) (j : Nat) (ha : j < a.length) (hb : j < b.length) :
    (listAdd a b).getD j 0 = a.getD j 0 + b.getD j 0 := by
  rw [List.getD_eq_getElem?_getD, listAdd, List.getElem?_zipWith,
    List.getElem?_eq_getElem ha, List.getElem?_eq_getElem hb,
    List.getD_eq_getElem?_getD, List.getElem?_eq_getElem ha,
    List.getD_eq_getElem?_getD, List.getElem?_eq_getElem hb]
  rfl

theorem heapAccum_region :
    ∀ (t x h r : List FVal), x.length = t.length →
      heapAccum (h ++ t ++ r) ((List.range t.length).map (fun i => h.length + i)) x
        = h ++ listAdd t x ++ r := by
  intro t
  induction t with
  | nil =>
      intro x h r hx
      have hx0 : x = [] := List.eq_nil_of_length_eq_zero hx
      subst hx0
      simp [heapAccum_nil, listAdd]
  | cons a t1 ih =>
      intro x h r hx
      cases x with
      | nil => simp at hx
      | cons b x1 =>
          have hx1 : x1.length = t1.length := by simpa using hx
          rw [List.length_cons, List.range_succ_eq_map, List.map_cons, List.map_map]
          show heapAccum ((h ++ a :: t1 ++ r).set (h.length + 0)
              ((h ++ a :: t1 ++ r).getD (h.length + 0) 0 + b))
              (List.map ((fun i => h.length + i) ∘ Nat.succ) (List.range t1.length)) x1 = _
          have hget : (h ++ a :: t1 ++ r).getD (h.length + 0) 0 = a := by
            rw [Nat.add_zero, List.append_assoc, getD_append_ge h _ h.length (le_refl _)]
            simp
          have hset : (h ++ a :: t1 ++ r).set (h.length + 0) (a + b)
              = (h ++ [a + b]) ++ t1 ++ r := by
            rw [Nat.add_zero, List.append_assoc, List.set_append]
            simp
          rw [hget, hset]
          have hfun : List.map ((fun i => h.length + i) ∘ Nat.succ) (List.range t1.length)
              = List.map (fun i => (h ++ [a + b]).length + i) (List.range t1.length) := by
            apply List.map_congr_left
            intro i hi
            simp [Function.comp]
            omega
          rw [hfun, ih x1 (h ++ [a + b]) r hx1]
          simp [listAdd, List.append_assoc]

theorem map_getD_range : ∀ t : List FVal, (List.range t.length).map (fun i => t.getD i 0) = t := by
  intro t
  induction t with
  | nil => rfl
  | cons a t1 ih =>
      rw [List.length_cons, List.range_succ_eq_map, List.map_cons, List.map_map]
      have hfun : List.map ((fun i => (a :: t1).getD i 0) ∘ Nat.succ) (List.range t1.length)
          = List.map (fun i => t1.getD i 0) (List.range t1.length) := by
        apply List.map_congr_left
        intro i hi
        simp [Function.comp]
      rw [hfun, ih]
      simp

theorem readResult_region (h t r : List FVal) :
    readResult (h ++ t ++ r) ((List.range t.length).map (fun i => h.length + i)) = t := by
  unfold readResult
  rw [List.map_map]
  have hfun : List.map ((fun i => (h ++ t ++ r).getD i 0) ∘ (fun i => h.length + i))
      (List.range t.length) = List.map (fun i => t.getD i 0) (List.range t.length) := by
    apply List.map_congr_left
    intro i hi
    rw [List.mem_range] at hi
    simp only [Function.comp]
    rw [List.append_assoc, getD_append_ge h _ (h.length + i) (by omega)]
    rw [Nat.add_sub_cancel_left, getD_append_lt t r i hi]
  rw [hfun, map_getD_range]

theorem taskDelta_length (op : FVal → FVal) (argt : ArgTuple) (b : Batch)
    (hlo : b.lo ≤ argt.v.length) :
    (taskDelta op argt b).length = argt.v.length := by
  simp only [taskDelta, insert_result_batch, MicroTask_call, copy_input_batch,
    List.length_append, List.length_take, List.length_drop, List.length_map,
    List.length_replicate]
  omega

theorem taskDelta_getD (op : FVal → FVal) (argt : ArgTuple) (b : Batch) (j : Nat)
    (hlo : b.lo ≤ b.hi) (hhi : b.hi ≤ argt.v.length) (hj : j < argt.v.length) :
    (taskDelta op argt b).getD j 0
      = if b.lo ≤ j ∧ j < b.hi then argt.a * argt.f1 * op (argt.v.getD j 0) else 0 := by
  have hAlen : ((List.replicate argt.v.length (0:FVal)).take b.lo).length = b.lo := by
    simp
    omega
  have hBlen : ((MicroTask_call op argt.f1 argt.a (copy_input_batch b argt).v)).length
      = b.hi - b.lo := by
    simp only [MicroTask_call, copy_input_batch, List.length_map, List.length_take,
      List.length_drop]
    omega
  show ((List.replicate argt.v.length (0:FVal)).take b.lo
      ++ MicroTask_call op argt.f1 argt.a (copy_input_batch b argt).v
      ++ (List.replicate argt.v.length (0:FVal)).drop
          (b.lo + (MicroTask_call op argt.f1 argt.a (copy_input_batch b argt).v).length)).getD j 0
    = _
  by_cases h1 : j < b.lo
  · rw [getD_append_lt _ _ j (by rw [List.length_append, hAlen, hBlen]; omega),
      getD_append_lt _ _ j (by rw [hAlen]; omega)]
    rw [List.take_replicate, List.getD_eq_getElem?_getD, List.getElem?_replicate]
    rw [if_pos (by omega)]
    rw [if_neg (by omega)]
    rfl
  · by_cases h2 : j < b.hi
    · rw [getD_append_lt _ _ j (by rw [List.length_append, hAlen, hBlen]; omega),
        getD_append_ge _ _ j (by rw [hAlen]; omega), hAlen]
      have hjb : j - b.lo < b.hi - b.lo := by omega
      rw [MicroTask_call, copy_input_batch, List.getD_eq_getElem?_getD, List.getElem?_map]
      rw [List.getElem?_take]
      rw [if_pos hjb]
      rw [List.getElem?_drop]
      have hidx : b.lo + (j - b.lo) = j := Nat.add_sub_cancel' (by omega)
      rw [hidx, List.getElem?_eq_getElem hj]
      rw [if_pos (by omega)]
      rw [List.getD_eq_getElem _ _ hj]
      rfl
    · rw [getD_append_ge _ _ j (by rw [List.length_append, hAlen, hBlen]; omega)]
      rw [List.length_append, hAlen, hBlen, List.drop_replicate]
      rw [List.getD_eq_getElem?_getD, List.getElem?_replicate]
      rw [if_pos (by omega), if_neg (by omega)]
      rfl

theorem sum_range_onehot (n : Nat) (f : Nat → FVal) (i0 : Nat) (hi0 : i0 < n)
    (hz : ∀ i, i < n → i ≠ i0 → f i = 0) :
    ((List.range n).map f).sum = f i0 := by
  induction n with
  | zero => omega
  | succ m ih =>
      rw [List.range_succ, List.map_append, List.sum_append]
      by_cases hm : i0 = m
      · subst hm
        have hzero : ((List.range i0).map f).sum = 0 := by
          apply List.sum_eq_zero
          intro x hx
          rw [List.mem_map] at hx
          obtain ⟨i, hi, rfl⟩ := hx
          rw [List.mem_range] at hi
          exact hz i (by omega) (by omega)
        rw [hzero]
        simp
      · have hi0m : i0 < m := by omega
        rw [ih hi0m (fun i hi hne => hz i (by omega) hne)]
        have hfm : f m = 0 := hz m (by omega) (by omega)
        simp [hfm]

theorem fold_listAdd_length (dl : Batch → List FVal) :
    ∀ (bs : List Batch) (t : List FVal), (∀ b ∈ bs, (dl b).length = t.length) →
      (bs.foldl (fun acc b => listAdd acc (dl b)) t).length = t.length := by
  intro bs
  induction bs with
  | nil => intro t _; rfl
  | cons b bs ih =>
      intro t hlen
      rw [List.foldl_cons]
      have h1 : (listAdd t (dl b)).length = t.length := by
        rw [listAdd_length, hlen b (by simp)]
        omega
      rw [ih (listAdd t (dl b)) (fun b2 hb2 => by rw [h1, hlen b2 (by simp [hb2])]), h1]

theorem fold_listAdd_getD (dl : Batch → List FVal) :
    ∀ (bs : List Batch) (t : List FVal) (j : Nat),
      (∀ b ∈ bs, (dl b).length = t.length) → j < t.length →
      (bs.foldl (fun acc b => listAdd acc (dl b)) t).getD j 0
        = t.getD j 0 + (bs.map (fun b => (dl b).getD j 0)).sum := by
  intro bs
  induction bs with
  | nil => intro t j _ _; simp
  | cons b bs ih =>
      intro t j hlen hj
      rw [List.foldl_cons, List.map_cons, List.sum_cons]
      have h1 : (listAdd t (dl b)).length = t.length := by
        rw [listAdd_length, hlen b (by simp)]
        omega
      rw [ih (listAdd t (dl b)) j
        (fun b2 hb2 => by rw [h1, hlen b2 (by simp [hb2])]) (by omega)]
      rw [listAdd_getD t (dl b) j hj (by rw [hlen b (by simp)]; omega)]
      ring

theorem MicroTask_call_getD (op : FVal → FVal) (f1 a : FVal) (v : List FVal) (j : Nat)
    (hj : j < v.length) :
    (MicroTask_call op f1 a v).getD j 0 = a * f1 * op (v.getD j 0) := by
  rw [MicroTask_call, List.getD_eq_getElem?_getD, List.getElem?_map,
    List.getElem?_eq_getElem hj, List.getD_eq_getElem _ _ hj]
  rfl

theorem partition_hi_le_lo (g L i1 i2 : Nat) (h12 : i1 < i2) (h2 : i2 < max 1 (L / g)) :
    (if i1 + 1 = max 1 (L / g) then L else (i1 + 1) * g) ≤ i2 * g := by
  have hne : i1 + 1 ≠ max 1 (L / g) := by omega
  rw [if_neg hne]
  exact Nat.mul_le_mul_right g (by omega)

theorem partition_fold_deltas (op : FVal → FVal) (argt : ArgTuple) (g : Nat) :
    (partition_tasks g argt.v.length).foldl
        (fun acc b => listAdd acc (taskDelta op argt b)) (List.replicate argt.v.length 0)
      = MicroTask_call op argt.f1 argt.a argt.v := by
  have hwf : ∀ b ∈ partition_tasks g argt.v.length,
      ((fun b => taskDelta op argt b) b).length
        = (List.replicate argt.v.length (0:FVal)).length := by
    intro b hb
    rw [List.length_replicate]
    exact taskDelta_length op argt b
      (le_trans (partition_wf g argt.v.length b hb).1 (partition_wf g argt.v.length b hb).2)
  apply List.ext_getElem
  · rw [fold_listAdd_length (fun b => taskDelta op argt b) _ _ hwf, List.length_replicate]
    simp [MicroTask_call]
  · intro j hj1 hj2
    have hjL : j < argt.v.length := by
      rw [fold_listAdd_length (fun b => taskDelta op argt b) _ _ hwf,
        List.length_replicate] at hj1
      exact hj1
    rw [← List.getD_eq_getElem _ 0 hj1, ← List.getD_eq_getElem _ 0 hj2]
    rw [fold_listAdd_getD (fun b => taskDelta op argt b) _ _ j hwf
      (by rw [List.length_replicate]; exact hjL)]
    have hzero : (List.replicate argt.v.length (0:FVal)).getD j 0 = 0 := by
      rw [List.getD_eq_getElem?_getD, List.getElem?_replicate, if_pos hjL]
      rfl
    rw [hzero, MicroTask_call_getD op argt.f1 argt.a argt.v j hjL]
    obtain ⟨b0, hb0, hlo0, hhi0⟩ := partition_cover g argt.v.length j hjL
    obtain ⟨i0, hi0n, rfl⟩ := (partition_mem_iff g argt.v.length b0).mp hb0
    simp only at hlo0 hhi0
    rw [partition_tasks, List.map_map]
    rw [sum_range_onehot (max 1 (argt.v.length / g)) _ i0 hi0n ?_]
    · simp only [Function.comp_apply, zero_add]
      rw [taskDelta_getD op argt _ j ?_ ?_ hjL]
      · rw [if_pos ⟨hlo0, hhi0⟩]
      · exact (partition_wf g argt.v.length _ hb0).1
      · exact (partition_wf g argt.v.length _ hb0).2
    · intro i hin hine
      simp only [Function.comp_apply]
      have hbi : (⟨i * g, if i + 1 = max 1 (argt.v.length / g) then argt.v.length
          else (i + 1) * g⟩ : Batch) ∈ partition_tasks g argt.v.length :=
        (partition_mem_iff g argt.v.length _).mpr ⟨i, hin, rfl⟩
      rw [taskDelta_getD op argt _ j (partition_wf g argt.v.length _ hbi).1
        (partition_wf g argt.v.length _ hbi).2 hjL]
      rcases Nat.lt_or_ge i i0 with hlt | hge
      · have hle := partition_hi_le_lo g argt.v.length i i0 hlt hi0n
        rw [if_neg ?_]
        intro ⟨hc1, hc2⟩
        simp only at hc1 hc2
        omega
      · have hlt2 : i0 < i := by omega
        have hle := partition_hi_le_lo g argt.v.length i0 i hlt2 hin
        rw [if_neg ?_]
        intro ⟨hc1, hc2⟩
        simp only at hc1 hc2
        omega

theorem run_record_eq (op : FVal → FVal) (cl : Cloud) (b : Batch) (irec orec : Nat)
    (argt : ArgTuple) (ids : List Nat) (heap : List FVal)
    (hir : cloudLoad cl irec = some (Payload.argt argt))
    (hor : cloudLoad cl orec = some (Payload.impls ids)) :
    MacroTaskInternal_run op cl ⟨b, [irec], [orec]⟩ heap
      = some (heapAccum heap ids (taskDelta op argt b)) := by
  unfold MacroTaskInternal_run loadArg loadImpls
  simp only [hir, hor]
  rfl

theorem run_all_batches (op : FVal → FVal) (cl : Cloud) (irec orec : Nat)
    (argt : ArgTuple) (h r : List FVal)
    (hir : cloudLoad cl irec = some (Payload.argt argt))
    (hor : cloudLoad cl orec
      = some (Payload.impls ((List.range argt.v.length).map (fun i => h.length + i)))) :
    ∀ (bs : List Batch) (t : List FVal), t.length = argt.v.length →
      (∀ b ∈ bs, b.lo ≤ argt.v.length) →
      MacroTaskQ_run_all op cl (bs.map (fun b => ⟨b, [irec], [orec]⟩)) (h ++ t ++ r)
        = some (h ++ bs.foldl (fun acc b => listAdd acc (taskDelta op argt b)) t ++ r) := by
  intro bs
  induction bs with
  | nil => intro t _ _; rfl
  | cons b bs ih =>
      intro t ht hbs
      rw [List.map_cons, run_all_cons,
        run_record_eq op cl b irec orec argt _ (h ++ t ++ r) hir hor]
      have hdl : (taskDelta op argt b).length = t.length := by
        rw [taskDelta_length op argt b (hbs b (by simp)), ht]
      have hreg : heapAccum (h ++ t ++ r)
          ((List.range argt.v.length).map (fun i => h.length + i)) (taskDelta op argt b)
          = h ++ listAdd t (taskDelta op argt b) ++ r := by
        rw [← ht]
        exact heapAccum_region t (taskDelta op argt b) h r hdl
      rw [hreg, Option.some_bind]
      have hlen2 : (listAdd t (taskDelta op argt b)).length = argt.v.length := by
        rw [listAdd_length, hdl, ht]
        omega
      rw [ih (listAdd t (taskDelta op argt b)) hlen2 (fun b2 hb2 => hbs b2 (by simp [hb2]))]
      rw [List.foldl_cons]

theorem run_all_partition (op : FVal → FVal) (cl : Cloud) (g : Nat) (argt : ArgTuple)
    (irec orec : Nat) (h r : List FVal)
    (hir : cloudLoad cl irec = some (Payload.argt argt))
    (hor : cloudLoad cl orec
      = some (Payload.impls ((List.range argt.v.length).map (fun i => h.length + i)))) :
    MacroTaskQ_run_all op cl
        ((partition_tasks g argt.v.length).map (fun b => ⟨b, [irec], [orec]⟩))
        (h ++ List.replicate argt.v.length 0 ++ r)
      = some (h ++ MicroTask_call op argt.f1 argt.a argt.v ++ r) := by
  rw [run_all_batches op cl irec orec argt h r hir hor (partition_tasks g argt.v.length)
    (List.replicate argt.v.length 0) (by simp)
    (fun b hb => le_trans (partition_wf g argt.v.length b hb).1
      (partition_wf g argt.v.length b hb).2)]
  rw [partition_fold_deltas]

theorem run_all_append (op : FVal → FVal) (cl : Cloud) (l1 l2 : List MacroTaskInternal) :
    ∀ heap, MacroTaskQ_run_all op cl (l1 ++ l2) heap
      = (MacroTaskQ_run_all op cl l1 heap).bind (MacroTaskQ_run_all op cl l2) := by
  induction l1 with
  | nil => intro heap; rfl
  | cons r rs ih =>
      intro heap
      rw [List.cons_append, run_all_cons, run_all_cons, Option.bind_assoc]
      cases MacroTaskInternal_run op cl r heap with
      | none => rfl
      | some h1 => simp only [Option.some_bind]; exact ih h1

/-- C5: one task execution merges its batch-local partial result into the
global output by accumulation, not replacement: the sliced result is inserted
into the slice addressed by the Batch's output range of a zero template and
added, so inside the slice the global cells gain the task's values while
entries outside the slice (and the rest of the universe heap, `h` and `r`)
are left intact. -/
theorem C5_merge_accumulates (op : FVal → FVal) (cl : Cloud) (irec orec : Nat)
    (argt : ArgTuple) (b : Batch) (h t r : List FVal)
    (hir : cloudLoad cl irec = some (Payload.argt argt))
    (hor : cloudLoad cl orec
      = some (Payload.impls ((List.range argt.v.length).map (fun i => h.length + i))))
    (ht : t.length = argt.v.length)
    (hlo : b.lo ≤ b.hi) (hhi : b.hi ≤ argt.v.length) :
    ∃ t2 : List FVal,
      MacroTaskInternal_run op cl ⟨b, [irec], [orec]⟩ (h ++ t ++ r) = some (h ++ t2 ++ r) ∧
      t2.length = t.length ∧
      (∀ j, b.lo ≤ j → j < b.hi →
        t2.getD j 0 = t.getD j 0 + (MicroTask_call op argt.f1 argt.a argt.v).getD j 0) ∧
      (∀ j, j < t.length → j < b.lo ∨ b.hi ≤ j → t2.getD j 0 = t.getD j 0) := by
  have hloL : b.lo ≤ argt.v.length := le_trans hlo hhi
  have hdl : (taskDelta op argt b).length = t.length := by
    rw [taskDelta_length op argt b hloL, ht]
  refine ⟨listAdd t (taskDelta op argt b), ?_, ?_, ?_, ?_⟩
  · rw [run_record_eq op cl b irec orec argt _ (h ++ t ++ r) hir hor, ← ht]
    rw [heapAccum_region t (taskDelta op argt b) h r hdl]
  · rw [listAdd_length, hdl]
    omega
  · intro j hj1 hj2
    have hjt : j < t.length := by omega
    rw [listAdd_getD t _ j hjt (by omega)]
    rw [taskDelta_getD op argt b j hlo hhi (by omega)]
    rw [if_pos ⟨hj1, hj2⟩, MicroTask_call_getD op argt.f1 argt.a argt.v j (by omega)]
  · intro j hjt hout
    rw [listAdd_getD t _ j hjt (by omega)]
    rw [taskDelta_getD op argt b j hlo hhi (by omega)]
    rw [if_neg (by omega)]
    ring

/-- Witness for C5: one record with batch `[0,1)` over a one-element output
object, concrete cloud and heap. -/
theorem C5_merge_accumulates_witness :
    ∃ t2 : List FVal,
      MacroTaskInternal_run id [Payload.argt ⟨1, 1, [5]⟩, Payload.impls [0]]
          ⟨⟨0, 1⟩, [0], [1]⟩ ([] ++ [0] ++ []) = some ([] ++ t2 ++ []) ∧
      t2.length = ([0] : List FVal).length ∧
      (∀ j, (⟨0, 1⟩ : Batch).lo ≤ j → j < (⟨0, 1⟩ : Batch).hi →
        t2.getD j 0 = ([0] : List FVal).getD j 0
          + (MicroTask_call id (1 : FVal) 1 [5]).getD j 0) ∧
      (∀ j, j < ([0] : List FVal).length →
        j < (⟨0, 1⟩ : Batch).lo ∨ (⟨0, 1⟩ : Batch).hi ≤ j →
        t2.getD j 0 = ([0] : List FVal).getD j 0) :=
  C5_merge_accumulates id [Payload.argt ⟨1, 1, [5]⟩, Payload.impls [0]] 0 1
    ⟨1, 1, [5]⟩ ⟨0, 1⟩ [] [0] [] (by decide) (by decide) (by decide) (by decide) (by decide)

/- ------------------------------------------------------------------ -/
/- Shapes of single operator() calls: machinery for C2 and C3          -/
/- ------------------------------------------------------------------ -/

theorem cloudStore_count_ne (c : Cloud) (p q : Payload) (hq : q ≠ p) :
    ((cloudStore c p).1).count q = c.count q := by
  unfold cloudStore
  cases firstIdx c p with
  | some i => rfl
  | none => simp [List.count_append, hq]

theorem partition_ne_nil (g L : Nat) : partition_tasks g L ≠ [] := by
  unfold partition_tasks
  simp [List.range_eq_nil]

theorem readResult_tail (h t : List FVal) :
    readResult (h ++ t) ((List.range t.length).map (fun i => h.length + i)) = t := by
  have hr := readResult_region h t []
  rwa [List.append_nil] at hr

theorem call_first_deferred_eq (op : FVal → FVal) (g : Nat) (heap : List FVal)
    (argt : ArgTuple) :
    MacroTask_2G_call op g ⟨some ⟨[], []⟩⟩ heap argt
      = some (⟨some ⟨[Payload.argt argt,
            Payload.impls ((List.range argt.v.length).map (fun i => heap.length + i))],
          (partition_tasks g argt.v.length).map (fun b => ⟨b, [0], [1]⟩)⟩⟩,
        heap ++ List.replicate argt.v.length 0,
        (List.range argt.v.length).map (fun i => heap.length + i)) := rfl

theorem call_deferred_eq (op : FVal → FVal) (g : Nat) (heap : List FVal)
    (argt : ArgTuple) (cl0 : Cloud) (pend0 : List MacroTaskInternal) :
    MacroTask_2G_call op g ⟨some ⟨cl0, pend0⟩⟩ heap argt
      = some (⟨some ⟨(cloudStore (cloudStore cl0 (Payload.argt argt)).1
            (Payload.impls ((List.range argt.v.length).map (fun i => heap.length + i)))).1,
          pend0 ++ (partition_tasks g argt.v.length).map
            (fun b => ⟨b, [(cloudStore cl0 (Payload.argt argt)).2],
              [(cloudStore (cloudStore cl0 (Payload.argt argt)).1
                (Payload.impls ((List.range argt.v.length).map
                  (fun i => heap.length + i)))).2]⟩)⟩⟩,
        heap ++ List.replicate argt.v.length 0,
        (List.range argt.v.length).map (fun i => heap.length + i)) := rfl

theorem cloudStore_nil (p : Payload) : cloudStore [] p = ([p], 0) := rfl

theorem cloudStore_second (t : ArgTuple) (ids : List Nat) :
    cloudStore [Payload.argt t] (Payload.impls ids)
      = ([Payload.argt t, Payload.impls ids], 1) := rfl

theorem cloudStore_head (t : ArgTuple) (c : Cloud) :
    cloudStore (Payload.argt t :: c) (Payload.argt t) = (Payload.argt t :: c, 0) := by
  simp [cloudStore, firstIdx]

theorem call_immediate_eq (op : FVal → FVal) (g : Nat) (heap : List FVal)
    (argt : ArgTuple) :
    MacroTask_2G_call op g ⟨none⟩ heap argt
      = some (⟨some ⟨[Payload.argt argt,
            Payload.impls ((List.range argt.v.length).map (fun i => heap.length + i))], []⟩⟩,
        heap ++ MicroTask_call op argt.f1 argt.a argt.v ++ [],
        (List.range argt.v.length).map (fun i => heap.length + i)) := by
  have hrun : MacroTaskQ_run_all op
      [Payload.argt argt,
        Payload.impls ((List.range argt.v.length).map (fun i => heap.length + i))]
      ((partition_tasks g argt.v.length).map
        (fun b => (⟨b, [0], [1]⟩ : MacroTaskInternal)))
      (heap ++ List.replicate argt.v.length 0)
      = some (heap ++ MicroTask_call op argt.f1 argt.a argt.v ++ []) := by
    have hheap : heap ++ List.replicate argt.v.length (0:FVal)
        = heap ++ List.replicate argt.v.length 0 ++ [] := by
      rw [List.append_nil]
    rw [hheap]
    exact run_all_partition op _ g argt 0 1 heap [] rfl rfl
  unfold MacroTask_2G_call
  simp only [Option.isNone_none, Option.getD_none, if_true, ite_true, cloudStore_nil,
    cloudStore_second, allocateZeros, List.nil_append]
  rw [hrun]

/-- C2 fails as stated: `taskq_ptr.reset(new MacroTaskQ(...))` stores the
single-use queue in the member, so a second invocation on the same
`MacroTask_2G` object sees a non-null queue, takes the deferred path and never
runs the submitted record. At the concrete input (task value `1*1*1 = [1]`),
the second invocation's returned handle reads the zero placeholder `[0]`, not
the fully merged result `[1]`. -/
theorem C2_second_invocation_counterexample :
    ((MacroTask_2G_call id 1 ⟨none⟩ [] ⟨1, 1, [1]⟩).bind (fun s =>
        (MacroTask_2G_call id 1 s.1 s.2.1 ⟨1, 1, [1]⟩).map
          (fun s2 => readResult s2.2.1 s2.2.2))) = some [0] ∧
    MicroTask_call id 1 1 [1] = [1] ∧
    some ([0] : List FVal) ≠ some ([1] : List FVal) :=
  ⟨by decide, by decide, by decide⟩

/-- C2 amended: the first invocation of a `MacroTask_2G` constructed without a
task queue creates a queue, runs the submitted records synchronously (none are
left pending), and returns the fully merged result before the call returns;
but the queue is retained in the member `taskq_ptr`, so a second invocation on
the same object behaves as deferred: it submits its records to the retained
queue, leaves them pending, and returns the unmerged zero placeholder. -/
theorem C2_first_immediate_second_deferred (op : FVal → FVal) (g : Nat)
    (heap : List FVal) (argt : ArgTuple) :
    ∃ q1 heap1 ids1,
      MacroTask_2G_call op g ⟨none⟩ heap argt = some (⟨some q1⟩, heap1, ids1) ∧
      q1.pending = [] ∧
      readResult heap1 ids1 = MicroTask_call op argt.f1 argt.a argt.v ∧
      ∃ q2 heap2 ids2,
        MacroTask_2G_call op g ⟨some q1⟩ heap1 argt = some (⟨some q2⟩, heap2, ids2) ∧
        q2.pending ≠ [] ∧
        readResult heap2 ids2 = List.replicate argt.v.length 0 := by
  have hclen : (MicroTask_call op argt.f1 argt.a argt.v).length = argt.v.length := by
    simp [MicroTask_call]
  refine ⟨⟨[Payload.argt argt,
      Payload.impls ((List.range argt.v.length).map (fun i => heap.length + i))], []⟩,
    heap ++ MicroTask_call op argt.f1 argt.a argt.v ++ [],
    (List.range argt.v.length).map (fun i => heap.length + i),
    call_immediate_eq op g heap argt, rfl, ?_, ?_⟩
  · rw [← hclen]
    exact readResult_region heap (MicroTask_call op argt.f1 argt.a argt.v) []
  · refine ⟨_, _, _, call_deferred_eq op g _ argt _ [], ?_, ?_⟩
    · simp only [List.nil_append]
      intro hmap
      rw [List.map_eq_nil_iff] at hmap
      exact partition_ne_nil g argt.v.length hmap
    · have hrange : List.range argt.v.length
          = List.range (List.replicate argt.v.length (0:FVal)).length := by simp
      rw [hrange]
      exact readResult_tail _ (List.replicate argt.v.length 0)

/-- C3: submitting the identical task twice with identical arguments to the
same queue before `run_all()` drains it stores the input payload exactly once
in the Distributed Store (the second submission's memoized `store` reuses the
existing input record), and both returned handles resolve to equal results —
each equal to the full task value. -/
theorem C3_double_submission_caching (op : FVal → FVal) (g : Nat) (heap : List FVal)
    (argt : ArgTuple) :
    ∃ clF heapF ids1 ids2,
      runTwice op g heap argt = some (clF, heapF, ids1, ids2) ∧
      clF.count (Payload.argt argt) = 1 ∧
      readResult heapF ids1 = readResult heapF ids2 ∧
      readResult heapF ids1 = MicroTask_call op argt.f1 argt.a argt.v := by
  have hclen : (MicroTask_call op argt.f1 argt.a argt.v).length = argt.v.length := by
    simp [MicroTask_call]
  have hbase : (heap ++ List.replicate argt.v.length (0:FVal)).length
      = (heap ++ MicroTask_call op argt.f1 argt.a argt.v).length := by
    simp [MicroTask_call]
  have hrangecall : List.range argt.v.length
      = List.range (MicroTask_call op argt.f1 argt.a argt.v).length := by
    rw [hclen]
  have hir : cloudLoad (cloudStore
      [Payload.argt argt,
        Payload.impls ((List.range argt.v.length).map (fun i => heap.length + i))]
      (Payload.impls ((List.range argt.v.length).map
        (fun i => (heap ++ List.replicate argt.v.length 0).length + i)))).1 0
      = some (Payload.argt argt) := by
    rw [cloudStore_stable _ _ 0 (by simp)]
    rfl
  have hor1 : cloudLoad (cloudStore
      [Payload.argt argt,
        Payload.impls ((List.range argt.v.length).map (fun i => heap.length + i))]
      (Payload.impls ((List.range argt.v.length).map
        (fun i => (heap ++ List.replicate argt.v.length 0).length + i)))).1 1
      = some (Payload.impls ((List.range argt.v.length).map (fun i => heap.length + i))) := by
    rw [cloudStore_stable _ _ 1 (by simp)]
    rfl
  have hor2 : cloudLoad (cloudStore
      [Payload.argt argt,
        Payload.impls ((List.range argt.v.length).map (fun i => heap.length + i))]
      (Payload.impls ((List.range argt.v.length).map
        (fun i => (heap ++ List.replicate argt.v.length 0).length + i)))).1
      (cloudStore
        [Payload.argt argt,
          Payload.impls ((List.range argt.v.length).map (fun i => heap.length + i))]
        (Payload.impls ((List.range argt.v.length).map
          (fun i => (heap ++ List.replicate argt.v.length 0).length + i)))).2
      = some (Payload.impls ((List.range argt.v.length).map
          (fun i => (heap ++ MicroTask_call op argt.f1 argt.a argt.v).length + i))) := by
    rw [cloudStore_load]
    simp only [hbase]
  have hph1 : MacroTaskQ_run_all op (cloudStore
      [Payload.argt argt,
        Payload.impls ((List.range argt.v.length).map (fun i => heap.length + i))]
      (Payload.impls ((List.range argt.v.length).map
        (fun i => (heap ++ List.replicate argt.v.length 0).length + i)))).1
      ((partition_tasks g argt.v.length).map
        (fun b => (⟨b, [0], [1]⟩ : MacroTaskInternal)))
      (heap ++ List.replicate argt.v.length 0 ++ List.replicate argt.v.length 0)
      = some (heap ++ MicroTask_call op argt.f1 argt.a argt.v
          ++ List.replicate argt.v.length 0) :=
    run_all_partition op _ g argt 0 1 heap (List.replicate argt.v.length 0) hir hor1
  have hph2 : MacroTaskQ_run_all op (cloudStore
      [Payload.argt argt,
        Payload.impls ((List.range argt.v.length).map (fun i => heap.length + i))]
      (Payload.impls ((List.range argt.v.length).map
        (fun i => (heap ++ List.replicate argt.v.length 0).length + i)))).1
      ((partition_tasks g argt.v.length).map
        (fun b => (⟨b, [0], [(cloudStore
          [Payload.argt argt,
            Payload.impls ((List.range argt.v.length).map (fun i => heap.length + i))]
          (Payload.impls ((List.range argt.v.length).map
            (fun i => (heap ++ List.replicate argt.v.length 0).length + i)))).2]⟩
            : MacroTaskInternal)))
      (heap ++ MicroTask_call op argt.f1 argt.a argt.v ++ List.replicate argt.v.length 0)
      = some (heap ++ MicroTask_call op argt.f1 argt.a argt.v
          ++ MicroTask_call op argt.f1 argt.a argt.v ++ []) := by
    rw [show heap ++ MicroTask_call op argt.f1 argt.a argt.v
        ++ List.replicate argt.v.length (0:FVal)
        = heap ++ MicroTask_call op argt.f1 argt.a argt.v
          ++ List.replicate argt.v.length (0:FVal) ++ [] from (List.append_nil _).symm]
    exact run_all_partition op _ g argt 0 _
      (heap ++ MicroTask_call op argt.f1 argt.a argt.v) [] hir hor2
  refine ⟨(cloudStore
      [Payload.argt argt,
        Payload.impls ((List.range argt.v.length).map (fun i => heap.length + i))]
      (Payload.impls ((List.range argt.v.length).map
        (fun i => (heap ++ List.replicate argt.v.length 0).length + i)))).1,
    heap ++ MicroTask_call op argt.f1 argt.a argt.v
      ++ MicroTask_call op argt.f1 argt.a argt.v ++ [],
    (List.range argt.v.length).map (fun i => heap.length + i),
    (List.range argt.v.length).map
      (fun i => (heap ++ List.replicate argt.v.length 0).length + i),
    ?_, ?_, ?_, ?_⟩
  · unfold runTwice
    simp only [call_deferred_eq, cloudStore_nil, cloudStore_second, cloudStore_head,
      List.nil_append]
    rw [run_all_append, hph1, Option.some_bind, hph2]
    rfl
  · rw [cloudStore_count_ne _ _ _ (by simp)]
    simp
  · rw [List.append_nil]
    have h1 : readResult
        (heap ++ MicroTask_call op argt.f1 argt.a argt.v
          ++ MicroTask_call op argt.f1 argt.a argt.v)
        ((List.range argt.v.length).map (fun i => heap.length + i))
        = MicroTask_call op argt.f1 argt.a argt.v := by
      rw [hrangecall]
      exact readResult_region heap _ _
    have h2 : readResult
        (heap ++ MicroTask_call op argt.f1 argt.a argt.v
          ++ MicroTask_call op argt.f1 argt.a argt.v)
        ((List.range argt.v.length).map
          (fun i => (heap ++ List.replicate argt.v.length 0).length + i))
        = MicroTask_call op argt.f1 argt.a argt.v := by
      simp only [hbase]
      rw [hrangecall]
      exact readResult_tail (heap ++ MicroTask_call op argt.f1 argt.a argt.v) _
    rw [h1, h2]
  · rw [List.append_nil, hrangecall]
    exact readResult_region heap _ _
